import Mathlib

/-!
Shallow embedding of the brainstorm interpreter (src/parser.rs, src/interpreter.rs).

The parser (`Program::parse`) consumes a buffered line reader; we model the
source as the list of its lines, each line a list of characters (Rust
`BufRead::lines` yields the text between newlines).  Machine integers are
modelled as `Nat`/`Int` with explicit wrapping: `u8` arithmetic is `% 256`,
`usize`/`isize` wrapping arithmetic is explicit `% 2 ^ 64` (64-bit target).
I/O failures while reading source lines are not modelled (the line list is
pure), so `ParserError::IOError` has no counterpart here.
-/

set_option maxHeartbeats 1000000

namespace Brainstorm

/-- Type `Token` from src/parser.rs.  `Increment` carries a `u8` (here a `Nat`
kept `< 256` by construction), `Move` an `isize` (here an `Int` kept in
`[-2^63, 2^63)` by construction), the jumps a `usize` target. -/
inductive Token where
  | increment (value : Nat)
  | move (value : Int)
  | jumpZero (target : Nat)
  | jumpNotZero (target : Nat)
  | input
  | output
  | printState
  | eof
  deriving DecidableEq, Repr

/-- Type `Unit` from src/parser.rs.  The Rust field `end` is a Lean keyword and is
renamed `stop`. -/
structure Unit where
  description : List Char
  start : Nat
  stop : Nat
  deriving DecidableEq, Repr

/-- Type `Program` from src/parser.rs. -/
structure Program where
  units : List Unit
  tokens : List Token
  deriving DecidableEq, Repr

/-- Type `ParserError` from src/parser.rs (the `IOError` variant is unreachable in
this model, where the source is a pure list of lines). -/
inductive ParserError where
  | missingOpen
  | missingClose
  deriving DecidableEq, Repr

/-- The `isize::wrapping_add`-style normalisation into `[-2^63, 2^63)`. -/
def wrap64 (z : Int) : Int :=
  (z + 2 ^ 63) % 2 ^ 64 - 2 ^ 63

/-- Function `Program::push_token` (src/parser.rs:194-201): flush the pending token,
dropping `Increment(0)` and `Move(0)`.  The Rust function also clears the
pending `Option` (via `take`); callers below set `next := none` themselves. -/
def push_token (tokens : List Token) (next : Option Token) : List Token :=
  match next with
  | none => tokens
  | some t =>
    match t with
    | Token.increment v => if v = 0 then tokens else tokens ++ [t]
    | Token.move v => if v = 0 then tokens else tokens ++ [t]
    | _ => tokens ++ [t]

/-- The mutable local state of `Program::parse`: the emitted tokens, the
pending run-length token, the pending-`[` stack, and the unit table. -/
structure PState where
  tokens : List Token
  next : Option Token
  stack : List Nat
  units : List Unit
  deriving DecidableEq, Repr

/-- One character of the scanning loop of `Program::parse`
(src/parser.rs:111-167). -/
def processChar (parsePrint : Bool) (st : PState) (c : Char) : Except ParserError PState :=
  if c = '+' ∨ c = '-' then
    let iv : Nat := if c = '+' then 1 else 255
    match st.next with
    | some (Token.increment v) =>
      Except.ok { st with next := some (Token.increment ((v + iv) % 256)) }
    | _ =>
      Except.ok { st with tokens := push_token st.tokens st.next,
                          next := some (Token.increment iv) }
  else if c = '>' ∨ c = '<' then
    let iv : Int := if c = '>' then 1 else -1
    match st.next with
    | some (Token.move v) =>
      Except.ok { st with next := some (Token.move (wrap64 (v + iv))) }
    | _ =>
      Except.ok { st with tokens := push_token st.tokens st.next,
                          next := some (Token.move iv) }
  else if c = '.' then
    Except.ok { st with tokens := push_token st.tokens st.next ++ [Token.output],
                        next := none }
  else if c = ',' then
    Except.ok { st with tokens := push_token st.tokens st.next,
                        next := some Token.input }
  else if c = '[' then
    let t1 := push_token st.tokens st.next ++ [Token.jumpZero 0]
    Except.ok { st with tokens := t1, next := none, stack := t1.length :: st.stack }
  else if c = ']' then
    let t1 := push_token st.tokens st.next
    match st.stack with
    | [] => Except.error ParserError.missingOpen
    | e :: rest =>
      Except.ok { st with
        tokens := t1.set (e - 1) (Token.jumpZero (t1.length + 1)) ++ [Token.jumpNotZero e],
        next := none, stack := rest }
  else if c = '#' then
    if parsePrint then
      Except.ok { st with tokens := push_token st.tokens st.next ++ [Token.printState],
                          next := none }
    else
      Except.ok st
  else
    Except.ok st

/-- Rust `str::trim` on a line (Rust trims Unicode whitespace; sources here are
ASCII, for which `Char.isWhitespace` agrees). -/
def trimChars (l : List Char) : List Char :=
  ((l.dropWhile Char.isWhitespace).reverse.dropWhile Char.isWhitespace).reverse

/-- The `last_mut` update: apply `f` to the last element, if any. -/
def modifyLast (f : Unit → Unit) : List Unit → List Unit
  | [] => []
  | [u] => [f u]
  | u :: v :: rest => u :: modifyLast f (v :: rest)

def noUnitName : List Char := "No Unit Name".toList

def noUnitInfo : List Char := "No Unit Information".toList

/-- One iteration of the line loop of `Program::parse` (src/parser.rs:85-168).
Note the Rust code shadows `line` inside `if let Some(line) = line.strip_prefix(";")`;
the subsequent `for char in line.chars()` loop therefore scans the *outer*
trimmed line — including the `;` and the unit label — which is reproduced
faithfully here. -/
def processLine (parsePrint : Bool) (st : PState) (rawLine : List Char) :
    Except ParserError PState :=
  let line := trimChars rawLine
  let st1 :=
    if line.head? = some ';' then
      let label := line.drop 1
      let toks := push_token st.tokens st.next
      let units1 :=
        if st.units.isEmpty ∧ ¬ toks.isEmpty then
          st.units ++ [⟨noUnitName, 0, toks.length⟩]
        else st.units
      let units2 := modifyLast (fun u => { u with stop := toks.length }) units1
      { st with tokens := toks, next := none,
                units := units2 ++ [⟨trimChars label, toks.length, 0⟩] }
    else st
  line.foldlM (processChar parsePrint) st1

/-- Function `Program::parse` (src/parser.rs:79-192) over the list of source lines.
The final flush of the pending token (src/parser.rs:170-172) pushes it
unconditionally — unlike `push_token` it does not drop `Increment(0)` /
`Move(0)`. -/
def parse (lines : List (List Char)) (parsePrint : Bool) : Except ParserError Program := do
  let st ← lines.foldlM (processLine parsePrint) ⟨[], none, [], []⟩
  let tokens :=
    match st.next with
    | some t => st.tokens ++ [t]
    | none => st.tokens
  let tokens := tokens ++ [Token.eof]
  if ¬ st.stack.isEmpty then
    Except.error ParserError.missingClose
  else
    let units := if st.units.isEmpty then [⟨noUnitInfo, 0, tokens.length⟩] else st.units
    Except.ok ⟨modifyLast (fun u => { u with stop := tokens.length }) units, tokens⟩

/-! ## Execution engine (src/interpreter.rs) -/

/-- Type `InterpreterError` from src/interpreter.rs. -/
inductive InterpreterError where
  | tapeOverrun
  | invalidProgram
  | inputError
  deriving DecidableEq, Repr

/-- Type `EofBehaviour` from src/interpreter.rs. -/
inductive EofBehaviour where
  | setZero
  | setMinusOne
  | dontSet
  deriving DecidableEq, Repr

/-- One event of the external byte-input source: a successfully delivered
byte, or an I/O failure of a `read` call.  End-of-input is the end of the
list (a `read` past the end returns zero bytes, leaving the buffer alone). -/
inductive InEvent where
  | byte (b : Nat)
  | ioErr
  deriving DecidableEq, Repr

/-- The fields of `Interpreter<R>` (src/interpreter.rs:39-48), plus an
explicit `output` byte list standing for the external stdout sink written by
`Output`.  Tape cells are `u8`, kept `< 256` by construction. -/
structure EngineState where
  tape : List Nat
  program : Program
  pc : Nat
  ptr : Nat
  input : List InEvent
  eof_behaviour : EofBehaviour
  current_unit : Nat
  breakpoints : List Nat
  output : List Nat
  deriving DecidableEq, Repr

/-- Constructor `Interpreter::new` (src/interpreter.rs:52-68). -/
def Interpreter.new (program : Program) (tape_size : Nat) (eof_behaviour : EofBehaviour)
    (input : List InEvent) : EngineState :=
  { tape := List.replicate tape_size 0, program := program, pc := 0, ptr := 0,
    input := input, eof_behaviour := eof_behaviour, current_unit := 0,
    breakpoints := [], output := [] }

/-- Outcome of one `step` call.  `ok`/`err` mirror `Ok`/`Err` and carry the
engine state left behind (`&mut self` in Rust).  `panic` marks an
out-of-bounds tape access (`self.tape[..]` would panic).  `hang` marks a
unit-resynchronisation loop that never reaches containment — in Rust either a
non-terminating `while` or a panicking `self.program.units[..]` index. -/
inductive StepOut where
  | ok (more : Bool) (s : EngineState)
  | err (e : InterpreterError) (s : EngineState)
  | panic
  | hang
  deriving DecidableEq, Repr

/-- The unit-resynchronisation loop of `step` (src/interpreter.rs:336-342),
fuelled: the scan is cyclic with period `units.length`, so `units.length`
probes decide it.  `none` means the Rust loop would never terminate (or the
unit index was out of bounds, a panic). -/
def resyncAux (units : List Unit) (pc : Nat) : Nat → Nat → Option Nat
  | _, 0 => none
  | cu, Nat.succ fuel =>
    match units[cu]? with
    | none => none
    | some u =>
      if u.start ≤ pc ∧ pc < u.stop then some cu
      else resyncAux units pc ((cu + 1) % units.length) fuel

def resync (units : List Unit) (pc cu : Nat) : Option Nat :=
  resyncAux units pc cu units.length

/-- The common tail of every non-halting `step` branch: `self.pc += 1`
followed by the unit resynchronisation loop, then `Ok(true)`
(src/interpreter.rs:334-344). -/
def finish (s : EngineState) : StepOut :=
  let pc1 := s.pc + 1
  match resync s.program.units pc1 s.current_unit with
  | none => StepOut.hang
  | some cu => StepOut.ok true { s with pc := pc1, current_unit := cu }

/-- The `usize` interpretation of an `isize` (`*value as usize`). -/
def wrapU64 (d : Int) : Nat := (d % (2 : Int) ^ 64).toNat

/-- Pointer wrap: `self.ptr.wrapping_add(*value as usize)`. -/
def usizeWrapAdd (a : Nat) (d : Int) : Nat := (a + wrapU64 d) % 2 ^ 64

/-- The bytes `print!("{}", c as char)` writes for a cell value `c < 256`:
the UTF-8 encoding of the code point `c` — one byte below 128, two bytes
from 128 to 255. -/
def charBytes (c : Nat) : List Nat :=
  if c < 128 then [c] else [192 + c / 64, 128 + c % 64]

/-- Result of one `Read::read` call into the 1-byte buffer. -/
inductive ReadRes where
  | zero
  | got
  | fail
  deriving DecidableEq, Repr

/-- How a single instruction's arm of the `match` in `step` ends: fall
through to the common `pc += 1` / resynchronise tail (`cont`), `return
Ok(false)` (`halt`, the `Eof` arm), `return Err(..)` (`fail`), or an
out-of-bounds tape index (`panicked`). -/
inductive EffRes where
  | cont (s : EngineState)
  | halt (s : EngineState)
  | fail (e : InterpreterError) (s : EngineState)
  | panicked
  deriving DecidableEq, Repr

/-- One `self.input.read(&mut buffer)` call: returns the read result, the
buffer contents afterwards (unchanged on end-of-input or failure), and the
remaining input.  `buf` is the buffer contents before the call. -/
def readOne (buf : Nat) : List InEvent → ReadRes × Nat × List InEvent
  | [] => (ReadRes.zero, buf, [])
  | InEvent.byte b :: rest => (ReadRes.got, b % 256, rest)
  | InEvent.ioErr :: rest => (ReadRes.fail, buf, rest)

/-- The `Token::Input` arm of `step` (src/interpreter.rs:315-330): read one
byte (buffer initially 0); if the buffer then holds `\r` (13), read once
more; then dispatch on the final read result. -/
def stepInput (s : EngineState) : EffRes :=
  match readOne 0 s.input with
  | (res1, buf1, rest1) =>
    match (if buf1 = 13 then readOne buf1 rest1 else (res1, buf1, rest1)) with
    | (ReadRes.zero, _, rest) =>
      match s.eof_behaviour with
      | EofBehaviour.setZero =>
        match s.tape[s.ptr]? with
        | none => EffRes.panicked
        | some _ => EffRes.cont { s with tape := s.tape.set s.ptr 0, input := rest }
      | EofBehaviour.setMinusOne =>
        match s.tape[s.ptr]? with
        | none => EffRes.panicked
        | some _ => EffRes.cont { s with tape := s.tape.set s.ptr 255, input := rest }
      | EofBehaviour.dontSet => EffRes.cont { s with input := rest }
    | (ReadRes.got, buf, rest) =>
      match s.tape[s.ptr]? with
      | none => EffRes.panicked
      | some _ => EffRes.cont { s with tape := s.tape.set s.ptr buf, input := rest }
    | (ReadRes.fail, _, rest) =>
      EffRes.fail InterpreterError.inputError { s with input := rest }

/-- The body of the instruction `match` of `step` (src/interpreter.rs:291-333).
`PrintState` only renders state to the terminal (rendering is an external
collaborator per the spec's scope) and mutates nothing.  The taken-jump
`self.pc = *value - 1` uses truncated `Nat` subtraction; it agrees with Rust
for every target `≥ 1`, and compiled programs only carry targets `≥ 1`. -/
def execToken (s : EngineState) : Token → EffRes
  | Token.increment v =>
    match s.tape[s.ptr]? with
    | none => EffRes.panicked
    | some c => EffRes.cont { s with tape := s.tape.set s.ptr ((c + v) % 256) }
  | Token.move d =>
    if s.tape.length ≤ usizeWrapAdd s.ptr d then
      EffRes.fail InterpreterError.tapeOverrun s
    else EffRes.cont { s with ptr := usizeWrapAdd s.ptr d }
  | Token.jumpZero t =>
    match s.tape[s.ptr]? with
    | none => EffRes.panicked
    | some c => if c = 0 then EffRes.cont { s with pc := t - 1 } else EffRes.cont s
  | Token.jumpNotZero t =>
    match s.tape[s.ptr]? with
    | none => EffRes.panicked
    | some c => if c ≠ 0 then EffRes.cont { s with pc := t - 1 } else EffRes.cont s
  | Token.output =>
    match s.tape[s.ptr]? with
    | none => EffRes.panicked
    | some c => EffRes.cont { s with output := s.output ++ charBytes c }
  | Token.input => stepInput s
  | Token.printState => EffRes.cont s
  | Token.eof => EffRes.halt s

/-- Function `Interpreter::step` (src/interpreter.rs:285-345): fetch the instruction
(`InvalidProgram` if the program counter is out of bounds), execute its arm,
and on fall-through run the common advance/resynchronise tail. -/
def step (s : EngineState) : StepOut :=
  match s.program.tokens[s.pc]? with
  | none => StepOut.err InterpreterError.invalidProgram s
  | some tok =>
    match execToken s tok with
    | EffRes.cont s1 => finish s1
    | EffRes.halt s1 => StepOut.ok false s1
    | EffRes.fail e s1 => StepOut.err e s1
    | EffRes.panicked => StepOut.panic

/-- The loop body of `Interpreter::step_unit` (src/interpreter.rs:350-359),
fuelled; `start` is `starting_unit`. -/
def stepUnitAux (start : Nat) : Nat → EngineState → StepOut
  | 0, _ => StepOut.hang
  | Nat.succ fuel, s =>
    match step s with
    | StepOut.ok true s1 =>
      if s1.current_unit ≠ start then StepOut.ok true s1 else stepUnitAux start fuel s1
    | other => other

/-- Function `Interpreter::step_unit`, fuelled. -/
def step_unit (fuel : Nat) (s : EngineState) : StepOut :=
  stepUnitAux s.current_unit fuel s

/-- States reachable from `a` by repeatedly calling `step`, threading the
engine state through both successful and erroring calls (in Rust the engine
is mutated in place in either case). -/
inductive Reaches : EngineState → EngineState → Prop where
  | refl (s : EngineState) : Reaches s s
  | ok {a b : EngineState} (m : Bool) {c : EngineState} :
      Reaches a b → step b = StepOut.ok m c → Reaches a c
  | err {a b : EngineState} (e : InterpreterError) {c : EngineState} :
      Reaches a b → step b = StepOut.err e c → Reaches a c

/-! ## Invariant predicates -/

/-- A token list containing no jump tokens. -/
def JumpFree (l : List Token) : Prop :=
  ∀ tk ∈ l, (∀ w, tk ≠ Token.jumpZero w) ∧ (∀ w, tk ≠ Token.jumpNotZero w)

/-- The pending token of `Program::parse` is only ever absent, an
`Increment`, a `Move`, or `Input`. -/
def NextOK : Option Token → Prop
  | none => True
  | some (Token.increment _) => True
  | some (Token.move _) => True
  | some Token.input => True
  | some _ => False

/-- Invariant tying the emitted tokens to the pending-`[` stack during
parsing.  Stack entries are the positions one past each still-open
`JumpZero(0)` placeholder, strictly decreasing from the top; every closed
`JumpZero` and every `JumpNotZero` already satisfies the round-trip pairing. -/
structure TInv (toks : List Token) (stack : List Nat) : Prop where
  stackMem : ∀ e ∈ stack, 1 ≤ e ∧ e ≤ toks.length ∧ toks[e - 1]? = some (Token.jumpZero 0)
  stackDec : stack.Pairwise (fun a b => b < a)
  closedZ : ∀ (p t : Nat), toks[p]? = some (Token.jumpZero t) → t ≠ 0 →
      2 ≤ t ∧ t ≤ toks.length ∧ p + 2 ≤ t ∧ toks[t - 1]? = some (Token.jumpNotZero (p + 1))
  closedNZ : ∀ (q r : Nat), toks[q]? = some (Token.jumpNotZero r) →
      1 ≤ r ∧ r ≤ q ∧ toks[r - 1]? = some (Token.jumpZero (q + 1))
  openZ : ∀ (p : Nat), toks[p]? = some (Token.jumpZero 0) → (p + 1) ∈ stack

/-- Full parse-state invariant. -/
def PInv (st : PState) : Prop :=
  TInv st.tokens st.stack ∧ NextOK st.next

/-- What `Program::parse` guarantees about a compiled token stream, as far
as the program counter is concerned: non-empty, `Eof`-terminated, and all
jump targets in `[1, length)`. -/
structure GoodProg (P : Program) : Prop where
  nonempty : 1 ≤ P.tokens.length
  lastEof : P.tokens[P.tokens.length - 1]? = some Token.eof
  jz : ∀ (p t : Nat), P.tokens[p]? = some (Token.jumpZero t) → 1 ≤ t ∧ t < P.tokens.length
  jnz : ∀ (q t : Nat), P.tokens[q]? = some (Token.jumpNotZero t) → 1 ≤ t ∧ t < P.tokens.length

/-- Predicate `UChain a units n`: the unit ranges chain exactly from `a` to `n` — each
unit starts where its predecessor stopped, ranges are non-reversed, and the
last stop is `n`.  `UChain 0 units n` is the no-gap no-overlap partition of
`[0, n)` in increasing order. -/
def UChain : Nat → List Unit → Nat → Prop
  | a, [], n => a = n
  | a, u :: rest, n => u.start = a ∧ u.start ≤ u.stop ∧ UChain u.stop rest n

/-- Mid-parse unit-table shape: a chain from `a` whose last element's `stop`
is still the placeholder (it is overwritten before anyone reads it), with
the last `start` at most the current token count `L`. -/
def PreChainAux : Nat → List Unit → Nat → Prop
  | _, [], _ => False
  | a, [u], L => u.start = a ∧ u.start ≤ L
  | a, u :: v :: rest, L => u.start = a ∧ u.start ≤ u.stop ∧ PreChainAux u.stop (v :: rest) L

def PreChain (units : List Unit) (L : Nat) : Prop :=
  units = [] ∨ PreChainAux 0 units L

/-! ## Basic lemmas -/

theorem getElem?_append_some {α : Type _} {l extra : List α} {p : Nat} {x : α}
    (h : l[p]? = some x) : (l ++ extra)[p]? = some x := by
  have hp : p < l.length := (List.getElem?_eq_some.mp h).1
  rw [List.getElem?_append_left hp]; exact h

theorem getElem?_append_cases {α : Type _} {l extra : List α} {p : Nat} {x : α}
    (h : (l ++ extra)[p]? = some x) : l[p]? = some x ∨ x ∈ extra := by
  by_cases hp : p < l.length
  · left; rwa [List.getElem?_append_left hp] at h
  · right
    rw [List.getElem?_append_right (le_of_not_lt hp)] at h
    exact List.getElem?_mem h

theorem getElem?_some_lt {α : Type _} {l : List α} {p : Nat} {x : α}
    (h : l[p]? = some x) : p < l.length :=
  (List.getElem?_eq_some.mp h).1

theorem foldlM_except_inv {α σ ε : Type _} (f : σ → α → Except ε σ) (P : σ → Prop)
    (hf : ∀ s a s', P s → f s a = Except.ok s' → P s') :
    ∀ (l : List α) (s s' : σ), P s → l.foldlM f s = Except.ok s' → P s' := by
  intro l
  induction l with
  | nil =>
    intro s s' hP h
    simp only [List.foldlM] at h
    cases h
    exact hP
  | cons a l ih =>
    intro s s' hP h
    simp only [List.foldlM] at h
    cases hfa : f s a with
    | error e => rw [hfa] at h; simp [Bind.bind, Except.bind] at h
    | ok s1 =>
      rw [hfa] at h
      simp only [Bind.bind, Except.bind] at h
      exact ih s1 s' (hf s a s1 hP hfa) h

theorem JumpFree_append {a b : List Token} (ha : JumpFree a) (hb : JumpFree b) :
    JumpFree (a ++ b) := by
  intro tk htk
  rcases List.mem_append.mp htk with h | h
  · exact ha tk h
  · exact hb tk h

theorem push_token_append (toks : List Token) (next : Option Token) :
    ∃ extra, push_token toks next = toks ++ extra ∧
      (NextOK next → JumpFree extra) := by
  cases next with
  | none => exact ⟨[], by simp [push_token], fun _ tk htk => by simp at htk⟩
  | some t =>
    cases t with
    | increment v =>
      by_cases hv : v = 0
      · exact ⟨[], by simp [push_token, hv], fun _ tk htk => by simp at htk⟩
      · refine ⟨[Token.increment v], by simp [push_token, hv], fun _ tk htk => ?_⟩
        simp at htk
        subst htk
        constructor <;> intro w h <;> cases h
    | move v =>
      by_cases hv : v = 0
      · exact ⟨[], by simp [push_token, hv], fun _ tk htk => by simp at htk⟩
      · refine ⟨[Token.move v], by simp [push_token, hv], fun _ tk htk => ?_⟩
        simp at htk
        subst htk
        constructor <;> intro w h <;> cases h
    | input =>
      refine ⟨[Token.input], by simp [push_token], fun _ tk htk => ?_⟩
      simp at htk
      subst htk
      constructor <;> intro w h <;> cases h
    | jumpZero w => exact ⟨[Token.jumpZero w], by simp [push_token], fun h => absurd h (by simp [NextOK])⟩
    | jumpNotZero w => exact ⟨[Token.jumpNotZero w], by simp [push_token], fun h => absurd h (by simp [NextOK])⟩
    | output =>
      refine ⟨[Token.output], by simp [push_token], fun _ tk htk => ?_⟩
      simp at htk
      subst htk
      constructor <;> intro w h <;> cases h
    | printState =>
      refine ⟨[Token.printState], by simp [push_token], fun _ tk htk => ?_⟩
      simp at htk
      subst htk
      constructor <;> intro w h <;> cases h
    | eof =>
      refine ⟨[Token.eof], by simp [push_token], fun _ tk htk => ?_⟩
      simp at htk
      subst htk
      constructor <;> intro w h <;> cases h

theorem push_token_length (toks : List Token) (next : Option Token) :
    toks.length ≤ (push_token toks next).length := by
  obtain ⟨extra, heq, -⟩ := push_token_append toks next
  rw [heq]
  simp

/-! ## Preservation of the token/stack invariant -/

theorem TInv_append {toks extra : List Token} {stack : List Nat}
    (h : TInv toks stack) (hj : JumpFree extra) : TInv (toks ++ extra) stack := by
  refine ⟨?_, h.stackDec, ?_, ?_, ?_⟩
  · intro e he
    obtain ⟨h1, h2, h3⟩ := h.stackMem e he
    exact ⟨h1, by simp; omega, getElem?_append_some h3⟩
  · intro p t hp ht
    rcases getElem?_append_cases hp with hp' | hmem
    · obtain ⟨c1, c2, c3, c4⟩ := h.closedZ p t hp' ht
      exact ⟨c1, by simp; omega, c3, getElem?_append_some c4⟩
    · exact absurd rfl ((hj _ hmem).1 t)
  · intro q r hq
    rcases getElem?_append_cases hq with hq' | hmem
    · obtain ⟨d1, d2, d3⟩ := h.closedNZ q r hq'
      exact ⟨d1, d2, getElem?_append_some d3⟩
    · exact absurd rfl ((hj _ hmem).2 r)
  · intro p hp
    rcases getElem?_append_cases hp with hp' | hmem
    · exact h.openZ p hp'
    · exact absurd rfl ((hj _ hmem).1 0)

theorem TInv_open {toks : List Token} {stack : List Nat} (h : TInv toks stack) :
    TInv (toks ++ [Token.jumpZero 0]) ((toks.length + 1) :: stack) := by
  refine ⟨?_, ?_, ?_, ?_, ?_⟩
  · intro e he
    rcases List.mem_cons.mp he with rfl | he'
    · refine ⟨by omega, by simp, ?_⟩
      have : toks.length + 1 - 1 = toks.length := by omega
      rw [this]
      simp
    · obtain ⟨h1, h2, h3⟩ := h.stackMem e he'
      exact ⟨h1, by simp; omega, getElem?_append_some h3⟩
  · refine List.Pairwise.cons ?_ h.stackDec
    intro e he
    obtain ⟨-, h2, -⟩ := h.stackMem e he
    omega
  · intro p t hp ht
    rcases getElem?_append_cases hp with hp' | hmem
    · obtain ⟨c1, c2, c3, c4⟩ := h.closedZ p t hp' ht
      exact ⟨c1, by simp; omega, c3, getElem?_append_some c4⟩
    · simp at hmem
      exact absurd hmem ht
  · intro q r hq
    rcases getElem?_append_cases hq with hq' | hmem
    · obtain ⟨d1, d2, d3⟩ := h.closedNZ q r hq'
      exact ⟨d1, d2, getElem?_append_some d3⟩
    · simp at hmem
  · intro p hp
    by_cases hlt : p < toks.length
    · rw [List.getElem?_append_left hlt] at hp
      exact List.mem_cons_of_mem _ (h.openZ p hp)
    · have hlen : p < toks.length + 1 := by
        have := getElem?_some_lt hp
        simpa using this
      have hpl : p = toks.length := by omega
      subst hpl
      exact List.mem_cons_self _ _

theorem TInv_close {toks : List Token} {e : Nat} {rest : List Nat}
    (h : TInv toks (e :: rest)) :
    TInv (toks.set (e - 1) (Token.jumpZero (toks.length + 1)) ++ [Token.jumpNotZero e])
      rest := by
  obtain ⟨he1, he2, he3⟩ := h.stackMem e (List.mem_cons_self e rest)
  have heLt : e - 1 < toks.length := by omega
  have hrest_lt : ∀ e' ∈ rest, e' < e := by
    intro e' he'
    exact List.rel_of_pairwise_cons h.stackDec he'
  have hgetT_ne : ∀ (j : Nat), j ≠ e - 1 →
      (toks.set (e - 1) (Token.jumpZero (toks.length + 1)))[j]? = toks[j]? := by
    intro j hj
    exact List.getElem?_set_ne (fun hcon => hj hcon.symm)
  have hgetT_eq : (toks.set (e - 1) (Token.jumpZero (toks.length + 1)))[e - 1]? =
      some (Token.jumpZero (toks.length + 1)) :=
    List.getElem?_set_eq_of_lt _ heLt
  have hF_lt : ∀ (j : Nat), j < toks.length →
      (toks.set (e - 1) (Token.jumpZero (toks.length + 1)) ++ [Token.jumpNotZero e])[j]? =
        (toks.set (e - 1) (Token.jumpZero (toks.length + 1)))[j]? := by
    intro j hj
    exact List.getElem?_append_left (by simp; omega)
  have hF_last :
      (toks.set (e - 1) (Token.jumpZero (toks.length + 1)) ++ [Token.jumpNotZero e])[toks.length]? =
        some (Token.jumpNotZero e) := by
    have hTlen : (toks.set (e - 1) (Token.jumpZero (toks.length + 1))).length = toks.length := by
      simp
    rw [← hTlen]
    simp
  have hFlen :
      (toks.set (e - 1) (Token.jumpZero (toks.length + 1)) ++ [Token.jumpNotZero e]).length =
        toks.length + 1 := by
    simp
  refine ⟨?_, ?_, ?_, ?_, ?_⟩
  · intro e' he'
    obtain ⟨h1, h2, h3⟩ := h.stackMem e' (List.mem_cons_of_mem _ he')
    have hlt : e' < e := hrest_lt e' he'
    have hne : e' - 1 ≠ e - 1 := by omega
    refine ⟨h1, by rw [hFlen]; omega, ?_⟩
    rw [hF_lt (e' - 1) (by omega), hgetT_ne _ hne]
    exact h3
  · exact h.stackDec.of_cons
  · intro p t hp ht
    by_cases hpL : p < toks.length
    · rw [hF_lt p hpL] at hp
      by_cases hpe : p = e - 1
      · subst hpe
        rw [hgetT_eq] at hp
        have ht' : t = toks.length + 1 := by
          injection hp with h'
          injection h' with h''
          omega
        subst ht'
        refine ⟨by omega, by rw [hFlen], by omega, ?_⟩
        have h5 : toks.length + 1 - 1 = toks.length := by omega
        rw [h5, hF_last]
        have h6 : e - 1 + 1 = e := by omega
        rw [h6]
      · rw [hgetT_ne _ hpe] at hp
        obtain ⟨c1, c2, c3, c4⟩ := h.closedZ p t hp ht
        have htne : t - 1 ≠ e - 1 := by
          intro hcon
          rw [hcon, he3] at c4
          cases c4
        have htlt : t - 1 < toks.length := getElem?_some_lt c4
        refine ⟨c1, by rw [hFlen]; omega, c3, ?_⟩
        rw [hF_lt (t - 1) htlt, hgetT_ne _ htne]
        exact c4
    · have hplen : p < toks.length + 1 := by
        have := getElem?_some_lt hp
        rw [hFlen] at this
        omega
      have hpL' : p = toks.length := by omega
      subst hpL'
      rw [hF_last] at hp
      cases hp
  · intro q r hq
    by_cases hqL : q < toks.length
    · rw [hF_lt q hqL] at hq
      by_cases hqe : q = e - 1
      · subst hqe
        rw [hgetT_eq] at hq
        cases hq
      · rw [hgetT_ne _ hqe] at hq
        obtain ⟨d1, d2, d3⟩ := h.closedNZ q r hq
        have hrne : r - 1 ≠ e - 1 := by
          intro hcon
          rw [hcon, he3] at d3
          injection d3 with h'
          injection h' with h''
          omega
        have hrlt : r - 1 < toks.length := getElem?_some_lt d3
        refine ⟨d1, d2, ?_⟩
        rw [hF_lt (r - 1) hrlt, hgetT_ne _ hrne]
        exact d3
    · have hplen : q < toks.length + 1 := by
        have := getElem?_some_lt hq
        rw [hFlen] at this
        omega
      have hqL' : q = toks.length := by omega
      subst hqL'
      rw [hF_last] at hq
      injection hq with h'
      have hre : e = r := by injection h'
      subst hre
      refine ⟨he1, by omega, ?_⟩
      rw [hF_lt (e - 1) (by omega), hgetT_eq]
  · intro p hp
    by_cases hpL : p < toks.length
    · rw [hF_lt p hpL] at hp
      by_cases hpe : p = e - 1
      · subst hpe
        rw [hgetT_eq] at hp
        injection hp with h'
        injection h' with h''
        omega
      · rw [hgetT_ne _ hpe] at hp
        have hmem := h.openZ p hp
        rcases List.mem_cons.mp hmem with hcon | hmem'
        · omega
        · exact hmem'
    · have hplen : p < toks.length + 1 := by
        have := getElem?_some_lt hp
        rw [hFlen] at this
        omega
      have hpL' : p = toks.length := by omega
      subst hpL'
      rw [hF_last] at hp
      cases hp

theorem JumpFree_nil : JumpFree [] := by
  intro tk htk
  simp at htk

theorem JumpFree_one {t : Token} (h1 : ∀ w, t ≠ Token.jumpZero w)
    (h2 : ∀ w, t ≠ Token.jumpNotZero w) : JumpFree [t] := by
  intro tk htk
  simp at htk
  subst htk
  exact ⟨h1, h2⟩

theorem TInv_push {toks : List Token} {stack : List Nat} {next : Option Token}
    (h : TInv toks stack) (hn : NextOK next) : TInv (push_token toks next) stack := by
  obtain ⟨extra, heq, hj⟩ := push_token_append toks next
  rw [heq]
  exact TInv_append h (hj hn)

theorem TInv_nil : TInv [] [] := by
  refine ⟨?_, List.Pairwise.nil, ?_, ?_, ?_⟩
  · intro e he
    simp at he
  · intro p t hp
    simp at hp
  · intro q r hq
    simp at hq
  · intro p hp
    simp at hp

theorem processChar_PInv {pp : Bool} {st st' : PState} {c : Char}
    (h : PInv st) (hs : processChar pp st c = Except.ok st') : PInv st' := by
  obtain ⟨hT, hN⟩ := h
  have hjOut : JumpFree [Token.output] :=
    JumpFree_one (fun w hc => by cases hc) (fun w hc => by cases hc)
  have hjPrint : JumpFree [Token.printState] :=
    JumpFree_one (fun w hc => by cases hc) (fun w hc => by cases hc)
  unfold processChar at hs
  split_ifs at hs
  all_goals try split at hs
  all_goals cases hs
  all_goals
    first
    | exact ⟨hT, hN⟩
    | exact ⟨hT, trivial⟩
    | exact ⟨TInv_push hT hN, trivial⟩
    | exact ⟨TInv_append (TInv_push hT hN) hjOut, trivial⟩
    | exact ⟨TInv_append (TInv_push hT hN) hjPrint, trivial⟩
    | (refine ⟨?_, trivial⟩
       simpa using TInv_open (TInv_push hT hN))
    | (rename_i e rest heq
       refine ⟨?_, trivial⟩
       have hT1 : TInv st.tokens (e :: rest) := heq ▸ hT
       exact TInv_close (TInv_push hT1 hN))

theorem processLine_PInv {pp : Bool} {st st' : PState} {line : List Char}
    (h : PInv st) (hs : processLine pp st line = Except.ok st') : PInv st' := by
  unfold processLine at hs
  refine foldlM_except_inv (processChar pp) PInv
    (fun s a s' hP hok => processChar_PInv hP hok) _ _ _ ?_ hs
  split
  · exact ⟨TInv_push h.1 h.2, trivial⟩
  · exact h

theorem parse_ok_exists {lines : List (List Char)} {pp : Bool} {prog : Program}
    (h : parse lines pp = Except.ok prog) :
    ∃ st : PState, lines.foldlM (processLine pp) ⟨[], none, [], []⟩ = Except.ok st ∧
      st.stack = [] ∧
      prog.tokens =
        (match st.next with
         | some t => st.tokens ++ [t]
         | none => st.tokens) ++ [Token.eof] ∧
      prog.units = modifyLast (fun u => { u with stop := prog.tokens.length })
        (if st.units.isEmpty then [⟨noUnitInfo, 0, prog.tokens.length⟩] else st.units) := by
  unfold parse at h
  cases hst : lines.foldlM (processLine pp) ⟨[], none, [], []⟩ with
  | error e =>
    rw [hst] at h
    simp [Bind.bind, Except.bind] at h
  | ok st =>
    rw [hst] at h
    simp only [Bind.bind, Except.bind] at h
    by_cases hstk : st.stack.isEmpty
    · rw [if_neg (by simp [hstk])] at h
      cases h
      exact ⟨st, rfl, List.isEmpty_iff.mp hstk, rfl, rfl⟩
    · rw [if_pos (by simp [hstk])] at h
      cases h

/-- Any successfully parsed token stream is a `TInv`-satisfying base (with an
empty pending-bracket stack) followed by exactly the final `Eof`. -/
theorem parse_base {lines : List (List Char)} {pp : Bool} {prog : Program}
    (h : parse lines pp = Except.ok prog) :
    ∃ base : List Token, prog.tokens = base ++ [Token.eof] ∧ TInv base [] := by
  obtain ⟨st, hfold, hstk, htoks, -⟩ := parse_ok_exists h
  have hPInv : PInv st :=
    foldlM_except_inv (processLine pp) PInv
      (fun s a s' hP hok => processLine_PInv hP hok) lines _ st
      (show PInv ⟨[], none, [], []⟩ from ⟨TInv_nil, trivial⟩) hfold
  obtain ⟨hT, hN⟩ := hPInv
  rw [hstk] at hT
  cases hnext : st.next with
  | none =>
    refine ⟨st.tokens, ?_, hT⟩
    rw [htoks, hnext]
  | some t =>
    refine ⟨st.tokens ++ [t], ?_, ?_⟩
    · rw [htoks, hnext]
    · refine TInv_append hT (JumpFree_one ?_ ?_)
      · intro w hc
        rw [hnext] at hN
        subst hc
        exact hN
      · intro w hc
        rw [hnext] at hN
        subst hc
        exact hN

/-- Round-trip bracket pairing on a parsed stream: every `JumpZero` target is
one past a `JumpNotZero` that points back one past the `JumpZero`, and
conversely, all targets being valid indices. -/
theorem parse_pairing {lines : List (List Char)} {pp : Bool} {prog : Program}
    (h : parse lines pp = Except.ok prog) :
    (∀ (p t : Nat), prog.tokens[p]? = some (Token.jumpZero t) →
       1 ≤ t ∧ t < prog.tokens.length ∧ p + 2 ≤ t ∧
         prog.tokens[t - 1]? = some (Token.jumpNotZero (p + 1))) ∧
    (∀ (q r : Nat), prog.tokens[q]? = some (Token.jumpNotZero r) →
       1 ≤ r ∧ r < prog.tokens.length ∧ r ≤ q ∧
         prog.tokens[r - 1]? = some (Token.jumpZero (q + 1))) := by
  obtain ⟨base, heq, hT⟩ := parse_base h
  constructor
  · intro p t hp
    rw [heq] at hp
    rcases getElem?_append_cases hp with hp' | hmem
    · have ht0 : t ≠ 0 := by
        intro hcon
        subst hcon
        have := hT.openZ p hp'
        simp at this
      obtain ⟨c1, c2, c3, c4⟩ := hT.closedZ p t hp' ht0
      refine ⟨by omega, ?_, c3, ?_⟩
      · rw [heq]
        simp
        omega
      · rw [heq]
        exact getElem?_append_some c4
    · simp at hmem
  · intro q r hq
    rw [heq] at hq
    rcases getElem?_append_cases hq with hq' | hmem
    · obtain ⟨d1, d2, d3⟩ := hT.closedNZ q r hq'
      have hqlt : q < base.length := getElem?_some_lt hq'
      refine ⟨d1, ?_, d2, ?_⟩
      · rw [heq]
        simp
        omega
      · rw [heq]
        exact getElem?_append_some d3
    · simp at hmem

/-- A parsed program is well-formed for program-counter purposes. -/
theorem parse_good {lines : List (List Char)} {pp : Bool} {prog : Program}
    (h : parse lines pp = Except.ok prog) : GoodProg prog := by
  obtain ⟨base, heq, -⟩ := parse_base h
  obtain ⟨hz, hnz⟩ := parse_pairing h
  refine ⟨?_, ?_, ?_, ?_⟩
  · rw [heq]
    simp
  · rw [heq]
    have hlen : (base ++ [Token.eof]).length - 1 = base.length := by simp
    rw [hlen]
    simp
  · intro p t hp
    obtain ⟨c1, c2, -, -⟩ := hz p t hp
    exact ⟨c1, c2⟩
  · intro q t hq
    obtain ⟨d1, d2, -, -⟩ := hnz q t hq
    exact ⟨d1, d2⟩

/-! ## Resynchronisation lemmas -/

theorem resyncAux_some_contains {units : List Unit} {pc : Nat} :
    ∀ (f cu cu' : Nat), resyncAux units pc cu f = some cu' →
      ∃ u, units[cu']? = some u ∧ u.start ≤ pc ∧ pc < u.stop := by
  intro f
  induction f with
  | zero =>
    intro cu cu' h
    simp [resyncAux] at h
  | succ f ih =>
    intro cu cu' h
    simp only [resyncAux] at h
    cases hu : units[cu]? with
    | none =>
      simp only [hu] at h
      cases h
    | some u =>
      simp only [hu] at h
      by_cases hc : u.start ≤ pc ∧ pc < u.stop
      · rw [if_pos hc] at h
        injection h with h'
        subst h'
        exact ⟨u, hu, hc⟩
      · rw [if_neg hc] at h
        exact ih _ _ h

theorem resync_some_contains {units : List Unit} {pc cu cu' : Nat}
    (h : resync units pc cu = some cu') :
    ∃ u, units[cu']? = some u ∧ u.start ≤ pc ∧ pc < u.stop :=
  resyncAux_some_contains _ _ _ h

theorem resync_self {units : List Unit} {pc cu : Nat} {u : Unit}
    (hu : units[cu]? = some u) (h1 : u.start ≤ pc) (h2 : pc < u.stop) :
    resync units pc cu = some cu := by
  have hlen : cu < units.length := getElem?_some_lt hu
  obtain ⟨f, hf⟩ : ∃ f, units.length = f + 1 := ⟨units.length - 1, by omega⟩
  unfold resync
  rw [hf]
  simp only [resyncAux, hu]
  rw [if_pos ⟨h1, h2⟩]

theorem resyncAux_found {units : List Unit} {pc : Nat} :
    ∀ (f cu : Nat), cu < units.length →
      (∃ j, j < f ∧ ∃ u, units[(cu + j) % units.length]? = some u ∧
        u.start ≤ pc ∧ pc < u.stop) →
      (resyncAux units pc cu f).isSome := by
  intro f
  induction f with
  | zero =>
    intro cu hcu h
    obtain ⟨j, hj, -⟩ := h
    omega
  | succ f ih =>
    intro cu hcu h
    obtain ⟨j, hj, u, hu, h1, h2⟩ := h
    simp only [resyncAux]
    cases hval : units[cu]? with
    | none =>
      have := List.getElem?_eq_none_iff.mp hval
      omega
    | some u0 =>
      simp only [hval]
      by_cases hc : u0.start ≤ pc ∧ pc < u0.stop
      · rw [if_pos hc]
        simp
      · rw [if_neg hc]
        have hlpos : 0 < units.length := by omega
        rcases Nat.eq_zero_or_pos j with hj0 | hjpos
        · subst hj0
          rw [Nat.add_zero, Nat.mod_eq_of_lt hcu, hval] at hu
          injection hu with h'
          subst h'
          exact absurd ⟨h1, h2⟩ hc
        · obtain ⟨j', rfl⟩ : ∃ j', j = j' + 1 := ⟨j - 1, by omega⟩
          apply ih ((cu + 1) % units.length) (Nat.mod_lt _ hlpos)
          refine ⟨j', by omega, u, ?_, h1, h2⟩
          rw [Nat.mod_add_mod]
          have harith : cu + 1 + j' = cu + (j' + 1) := by omega
          rw [harith]
          exact hu

theorem UChain_exists_contains {pc : Nat} :
    ∀ (units : List Unit) (a n : Nat), UChain a units n → a ≤ pc → pc < n →
      ∃ (i : Nat) (u : Unit), units[i]? = some u ∧ u.start ≤ pc ∧ pc < u.stop := by
  intro units
  induction units with
  | nil =>
    intro a n h ha hpc
    simp only [UChain] at h
    omega
  | cons u rest ih =>
    intro a n h ha hpc
    obtain ⟨hs, hss, hrest⟩ := h
    by_cases hc : pc < u.stop
    · exact ⟨0, u, by simp, by omega, hc⟩
    · obtain ⟨i, u', h1, h2, h3⟩ := ih u.stop n hrest (by omega) hpc
      exact ⟨i + 1, u', by simpa using h1, h2, h3⟩

/-- If the units partition `[0, n)`, the pc is inside the stream, and the
unit index is in range, the cyclic resynchronisation scan succeeds. -/
theorem resync_complete {units : List Unit} {pc cu n : Nat}
    (h : UChain 0 units n) (hpc : pc < n) (hcu : cu < units.length) :
    (resync units pc cu).isSome := by
  obtain ⟨i, u, hu, h1, h2⟩ :=
    UChain_exists_contains units 0 n h (Nat.zero_le pc) hpc
  have hi : i < units.length := getElem?_some_lt hu
  apply resyncAux_found units.length cu hcu
  by_cases hle : cu ≤ i
  · refine ⟨i - cu, by omega, u, ?_, h1, h2⟩
    have harith : cu + (i - cu) = i := by omega
    rw [harith, Nat.mod_eq_of_lt hi]
    exact hu
  · refine ⟨i + units.length - cu, by omega, u, ?_, h1, h2⟩
    have harith : cu + (i + units.length - cu) = i + units.length := by omega
    rw [harith, Nat.add_mod_right, Nat.mod_eq_of_lt hi]
    exact hu

/-! ## `finish` and `step` lemmas -/

theorem finish_eq (s0 : EngineState) :
    finish s0 = match resync s0.program.units (s0.pc + 1) s0.current_unit with
      | none => StepOut.hang
      | some cu => StepOut.ok true { s0 with pc := s0.pc + 1, current_unit := cu } := rfl

theorem finish_ok {s0 : EngineState} {b : Bool} {s1 : EngineState}
    (h : finish s0 = StepOut.ok b s1) :
    b = true ∧ s1 = { s0 with pc := s0.pc + 1, current_unit := s1.current_unit } ∧
      resync s0.program.units (s0.pc + 1) s0.current_unit = some s1.current_unit := by
  rw [finish_eq] at h
  cases hres : resync s0.program.units (s0.pc + 1) s0.current_unit with
  | none =>
    simp only [hres] at h
    cases h
  | some cu =>
    simp only [hres] at h
    injection h with hb hs
    subst hs
    exact ⟨hb.symm, rfl, rfl⟩

theorem finish_not_err {s0 : EngineState} {e : InterpreterError} {s1 : EngineState} :
    finish s0 ≠ StepOut.err e s1 := by
  rw [finish_eq]
  cases hres : resync s0.program.units (s0.pc + 1) s0.current_unit <;> simp

theorem finish_not_ok_false {s0 s1 : EngineState} :
    finish s0 ≠ StepOut.ok false s1 := by
  rw [finish_eq]
  cases hres : resync s0.program.units (s0.pc + 1) s0.current_unit <;> simp

theorem finish_not_panic {s0 : EngineState} : finish s0 ≠ StepOut.panic := by
  rw [finish_eq]
  cases hres : resync s0.program.units (s0.pc + 1) s0.current_unit <;> simp

theorem finish_ne_hang {s0 : EngineState}
    (h : (resync s0.program.units (s0.pc + 1) s0.current_unit).isSome) :
    finish s0 ≠ StepOut.hang := by
  rw [finish_eq]
  cases hres : resync s0.program.units (s0.pc + 1) s0.current_unit with
  | none => rw [hres] at h; cases h
  | some cu => simp

theorem execToken_cont_frame {s s' : EngineState} {tok : Token}
    (h : execToken s tok = EffRes.cont s') :
    s'.program = s.program ∧ s'.current_unit = s.current_unit ∧
      s'.tape.length = s.tape.length := by
  cases tok <;> simp only [execToken, stepInput] at h
  iterate 8 (all_goals try split at h)
  all_goals cases h
  all_goals refine ⟨rfl, rfl, by simp⟩

theorem execToken_halt {s s' : EngineState} {tok : Token}
    (h : execToken s tok = EffRes.halt s') : s' = s ∧ tok = Token.eof := by
  cases tok <;> simp only [execToken, stepInput] at h
  iterate 8 (all_goals try split at h)
  all_goals cases h
  all_goals exact ⟨rfl, rfl⟩

theorem execToken_fail {s s' : EngineState} {tok : Token} {e : InterpreterError}
    (h : execToken s tok = EffRes.fail e s') :
    s'.pc = s.pc ∧ s'.ptr = s.ptr ∧ s'.tape = s.tape ∧
      s'.current_unit = s.current_unit ∧ s'.program = s.program := by
  cases tok <;> simp only [execToken, stepInput] at h
  iterate 8 (all_goals try split at h)
  all_goals cases h
  all_goals exact ⟨rfl, rfl, rfl, rfl, rfl⟩

theorem execToken_no_panic {s : EngineState} {tok : Token}
    (hptr : s.ptr < s.tape.length) : execToken s tok ≠ EffRes.panicked := by
  intro h
  cases tok <;> simp only [execToken, stepInput] at h
  iterate 8 (all_goals try split at h)
  all_goals try cases h
  all_goals simp_all [List.getElem?_eq_none_iff]

theorem execToken_cont_ptr_lt {s s' : EngineState} {tok : Token}
    (hptr : s.ptr < s.tape.length) (h : execToken s tok = EffRes.cont s') :
    s'.ptr < s'.tape.length := by
  cases tok <;> simp only [execToken, stepInput] at h
  iterate 8 (all_goals try split at h)
  all_goals cases h
  all_goals simp_all

theorem execToken_cont_ptr_eq {s s' : EngineState} {tok : Token}
    (h : execToken s tok = EffRes.cont s') (hmv : ∀ d, tok ≠ Token.move d) :
    s'.ptr = s.ptr := by
  cases tok with
  | move d => exact absurd rfl (hmv d)
  | _ =>
    first
    | (simp only [execToken, stepInput] at h
       iterate 8 (all_goals try split at h)
       all_goals cases h
       all_goals rfl)

/-- The state handed to `finish` by any cont-arm has a pc whose successor is
still inside the stream, provided the program is well-formed. -/
theorem execToken_cont_pcSucc {s s' : EngineState} {tok : Token}
    (hg : GoodProg s.program) (htok : s.program.tokens[s.pc]? = some tok)
    (h : execToken s tok = EffRes.cont s') :
    s'.pc + 1 < s.program.tokens.length := by
  have hlt : s.pc < s.program.tokens.length := getElem?_some_lt htok
  have hsucc : tok ≠ Token.eof → s.pc + 1 < s.program.tokens.length := by
    intro hne
    by_cases hpc : s.pc = s.program.tokens.length - 1
    · rw [hpc, hg.lastEof] at htok
      injection htok with h'
      exact absurd h'.symm hne
    · omega
  cases tok with
  | jumpZero t =>
    simp only [execToken] at h
    iterate 4 (all_goals try split at h)
    all_goals cases h
    · obtain ⟨h1, h2⟩ := hg.jz s.pc t htok
      simp only
      omega
    · exact hsucc (by intro hc; cases hc)
  | jumpNotZero t =>
    simp only [execToken] at h
    iterate 4 (all_goals try split at h)
    all_goals cases h
    · obtain ⟨h1, h2⟩ := hg.jnz s.pc t htok
      simp only
      omega
    · exact hsucc (by intro hc; cases hc)
  | _ =>
    first
    | (simp only [execToken, stepInput] at h
       iterate 8 (all_goals try split at h)
       all_goals cases h
       all_goals exact hsucc (by intro hc; cases hc))

theorem execToken_fail_ne_invalid {s s' : EngineState} {tok : Token}
    {e : InterpreterError} (h : execToken s tok = EffRes.fail e s') :
    e ≠ InterpreterError.invalidProgram := by
  cases tok <;> simp only [execToken, stepInput] at h
  iterate 8 (all_goals try split at h)
  all_goals cases h
  all_goals intro hc
  all_goals cases hc

theorem step_eq (s : EngineState) :
    step s = match s.program.tokens[s.pc]? with
      | none => StepOut.err InterpreterError.invalidProgram s
      | some tok =>
        match execToken s tok with
        | EffRes.cont s1 => finish s1
        | EffRes.halt s1 => StepOut.ok false s1
        | EffRes.fail e s1 => StepOut.err e s1
        | EffRes.panicked => StepOut.panic := rfl

theorem step_ok_true {s s1 : EngineState} (h : step s = StepOut.ok true s1) :
    ∃ tok s', s.program.tokens[s.pc]? = some tok ∧
      execToken s tok = EffRes.cont s' ∧ finish s' = StepOut.ok true s1 := by
  rw [step_eq] at h
  cases hget : s.program.tokens[s.pc]? with
  | none => simp only [hget] at h; cases h
  | some tok =>
    simp only [hget] at h
    cases hexec : execToken s tok with
    | cont s' =>
      simp only [hexec] at h
      exact ⟨tok, s', rfl, hexec, h⟩
    | halt s' => simp only [hexec] at h; cases h
    | fail e s' => simp only [hexec] at h; cases h
    | panicked => simp only [hexec] at h; cases h

theorem step_ok_false {s s1 : EngineState} (h : step s = StepOut.ok false s1) :
    s1 = s ∧ s.program.tokens[s.pc]? = some Token.eof := by
  rw [step_eq] at h
  cases hget : s.program.tokens[s.pc]? with
  | none => simp only [hget] at h; cases h
  | some tok =>
    simp only [hget] at h
    cases hexec : execToken s tok with
    | cont s' =>
      simp only [hexec] at h
      exact absurd h finish_not_ok_false
    | halt s' =>
      simp only [hexec] at h
      injection h with hb hs
      obtain ⟨hss, htok⟩ := execToken_halt hexec
      subst htok
      exact ⟨hs.symm.trans hss, rfl⟩
    | fail e s' => simp only [hexec] at h; cases h
    | panicked => simp only [hexec] at h; cases h

theorem step_err {s s1 : EngineState} {e : InterpreterError}
    (h : step s = StepOut.err e s1) :
    (s.program.tokens[s.pc]? = none ∧ e = InterpreterError.invalidProgram ∧ s1 = s) ∨
    (∃ tok, s.program.tokens[s.pc]? = some tok ∧ execToken s tok = EffRes.fail e s1) := by
  rw [step_eq] at h
  cases hget : s.program.tokens[s.pc]? with
  | none =>
    simp only [hget] at h
    injection h with he hs
    exact Or.inl ⟨rfl, he.symm, hs.symm⟩
  | some tok =>
    simp only [hget] at h
    cases hexec : execToken s tok with
    | cont s' =>
      simp only [hexec] at h
      exact absurd h finish_not_err
    | halt s' => simp only [hexec] at h; cases h
    | fail e' s' =>
      simp only [hexec] at h
      injection h with he hs
      subst he
      subst hs
      exact Or.inr ⟨tok, rfl, hexec⟩
    | panicked => simp only [hexec] at h; cases h

theorem step_panic {s : EngineState} (h : step s = StepOut.panic) :
    ∃ tok, s.program.tokens[s.pc]? = some tok ∧ execToken s tok = EffRes.panicked := by
  rw [step_eq] at h
  cases hget : s.program.tokens[s.pc]? with
  | none => simp only [hget] at h; cases h
  | some tok =>
    simp only [hget] at h
    cases hexec : execToken s tok with
    | cont s' =>
      simp only [hexec] at h
      exact absurd h finish_not_panic
    | halt s' => simp only [hexec] at h; cases h
    | fail e' s' => simp only [hexec] at h; cases h
    | panicked => exact ⟨tok, rfl, hexec⟩

theorem step_hang {s : EngineState} (h : step s = StepOut.hang) :
    ∃ tok s', s.program.tokens[s.pc]? = some tok ∧
      execToken s tok = EffRes.cont s' ∧ finish s' = StepOut.hang := by
  rw [step_eq] at h
  cases hget : s.program.tokens[s.pc]? with
  | none => simp only [hget] at h; cases h
  | some tok =>
    simp only [hget] at h
    cases hexec : execToken s tok with
    | cont s' =>
      simp only [hexec] at h
      exact ⟨tok, s', rfl, hexec, h⟩
    | halt s' => simp only [hexec] at h; cases h
    | fail e' s' => simp only [hexec] at h; cases h
    | panicked => simp only [hexec] at h; cases h

/-- A successful non-halting step resynchronised the unit index against the
new program counter, starting from the old unit index. -/
theorem step_ok_true_resync {s s1 : EngineState} (h : step s = StepOut.ok true s1) :
    s1.program = s.program ∧ s1.tape.length = s.tape.length ∧
      resync s.program.units s1.pc s.current_unit = some s1.current_unit := by
  obtain ⟨tok, s', hget, hexec, hfin⟩ := step_ok_true h
  obtain ⟨-, hs1, hres⟩ := finish_ok hfin
  obtain ⟨hprog, hcu, htlen⟩ := execToken_cont_frame hexec
  have hpc1 : s1.pc = s'.pc + 1 := by rw [hs1]
  have hprog1 : s1.program = s.program := by rw [hs1]; simpa using hprog
  have htape1 : s1.tape.length = s.tape.length := by
    rw [hs1]
    simpa using htlen
  refine ⟨hprog1, htape1, ?_⟩
  rw [hpc1, ← hprog, ← hcu]
  exact hres

theorem step_ok_true_contains {s s1 : EngineState} (h : step s = StepOut.ok true s1) :
    ∃ u, s1.program.units[s1.current_unit]? = some u ∧
      u.start ≤ s1.pc ∧ s1.pc < u.stop := by
  obtain ⟨hprog, -, hres⟩ := step_ok_true_resync h
  rw [hprog]
  exact resync_some_contains hres

theorem step_ok_true_cu_stable {s s1 : EngineState} (h : step s = StepOut.ok true s1)
    (hcont : ∃ u, s.program.units[s.current_unit]? = some u ∧
      u.start ≤ s1.pc ∧ s1.pc < u.stop) :
    s1.current_unit = s.current_unit := by
  obtain ⟨-, -, hres⟩ := step_ok_true_resync h
  obtain ⟨u, hu, h1, h2⟩ := hcont
  have hself := resync_self hu h1 h2
  rw [hself] at hres
  injection hres with h'
  exact h'.symm

theorem stepUnitAux_ok_true {start : Nat} :
    ∀ (f : Nat) (s s1 : EngineState), stepUnitAux start f s = StepOut.ok true s1 →
      s1.current_unit ≠ start := by
  intro f
  induction f with
  | zero =>
    intro s s1 h
    simp [stepUnitAux] at h
  | succ f ih =>
    intro s s1 h
    simp only [stepUnitAux] at h
    cases hstep : step s with
    | ok m s' =>
      cases m with
      | true =>
        simp only [hstep] at h
        by_cases hne : s'.current_unit ≠ start
        · rw [if_pos hne] at h
          injection h with hb hs
          subst hs
          exact hne
        · rw [if_neg hne] at h
          exact ih _ _ h
      | false =>
        simp only [hstep] at h
        cases h
    | err e s' => simp only [hstep] at h; cases h
    | panic => simp only [hstep] at h; cases h
    | hang => simp only [hstep] at h; cases h

theorem step_preserves {s s1 : EngineState} (hg : GoodProg s.program)
    (hpc : s.pc < s.program.tokens.length) :
    (∀ b, step s = StepOut.ok b s1 →
      s1.program = s.program ∧ s1.pc < s1.program.tokens.length) ∧
    (∀ e, step s = StepOut.err e s1 →
      s1.program = s.program ∧ s1.pc = s.pc) := by
  constructor
  · intro b hstep
    cases b with
    | true =>
      obtain ⟨tok, s', hget, hexec, hfin⟩ := step_ok_true hstep
      obtain ⟨-, hs1, -⟩ := finish_ok hfin
      obtain ⟨hprog, -, -⟩ := execToken_cont_frame hexec
      have hprog1 : s1.program = s.program := by rw [hs1]; simpa using hprog
      have hpc1 : s1.pc = s'.pc + 1 := by rw [hs1]
      have := execToken_cont_pcSucc hg hget hexec
      rw [hprog1, hpc1]
      exact ⟨rfl, this⟩
    | false =>
      obtain ⟨hs1, -⟩ := step_ok_false hstep
      subst hs1
      exact ⟨rfl, hpc⟩
  · intro e hstep
    rcases step_err hstep with ⟨hnone, -, -⟩ | ⟨tok, hget, hfail⟩
    · rw [List.getElem?_eq_none_iff] at hnone
      omega
    · obtain ⟨hpcEq, -, -, -, hprogEq⟩ := execToken_fail hfail
      exact ⟨hprogEq, hpcEq⟩

theorem step_not_invalid {s s1 : EngineState} (hpc : s.pc < s.program.tokens.length) :
    step s ≠ StepOut.err InterpreterError.invalidProgram s1 := by
  intro h
  rcases step_err h with ⟨hnone, -, -⟩ | ⟨tok, hget, hfail⟩
  · rw [List.getElem?_eq_none_iff] at hnone
    omega
  · exact execToken_fail_ne_invalid hfail rfl

/-! ## Unit-table lemmas -/

theorem foldlM_except_inv_mem {α σ ε : Type _} (f : σ → α → Except ε σ) (P : σ → Prop) :
    ∀ (l : List α), (∀ s a s', a ∈ l → P s → f s a = Except.ok s' → P s') →
      ∀ (s s' : σ), P s → l.foldlM f s = Except.ok s' → P s' := by
  intro l
  induction l with
  | nil =>
    intro hf s s' hP h
    simp only [List.foldlM] at h
    cases h
    exact hP
  | cons a l ih =>
    intro hf s s' hP h
    simp only [List.foldlM] at h
    cases hfa : f s a with
    | error e => rw [hfa] at h; simp [Bind.bind, Except.bind] at h
    | ok s1 =>
      rw [hfa] at h
      simp only [Bind.bind, Except.bind] at h
      exact ih (fun s a' s' ha' => hf s a' s' (List.mem_cons_of_mem _ ha'))
        s1 s' (hf s a s1 (List.mem_cons_self _ _) hP hfa) h

theorem processChar_units {pp : Bool} {st st' : PState} {c : Char}
    (h : processChar pp st c = Except.ok st') :
    st'.units = st.units ∧ st.tokens.length ≤ st'.tokens.length := by
  have hpl := push_token_length st.tokens st.next
  unfold processChar at h
  split_ifs at h
  all_goals try split at h
  all_goals cases h
  all_goals refine ⟨rfl, ?_⟩
  all_goals simp
  all_goals omega

theorem PreChainAux_mono :
    ∀ (units : List Unit) (a L L' : Nat), PreChainAux a units L → L ≤ L' →
      PreChainAux a units L' := by
  intro units
  induction units with
  | nil =>
    intro a L L' h hle
    exact h.elim
  | cons u tail ih =>
    intro a L L' h hle
    cases tail with
    | nil =>
      obtain ⟨h1, h2⟩ := h
      exact ⟨h1, by omega⟩
    | cons v rest =>
      obtain ⟨h1, h2, h3⟩ := h
      exact ⟨h1, h2, ih u.stop L L' h3 hle⟩

theorem PreChainAux_cons_intro {a L : Nat} {u : Unit} {X : List Unit}
    (hne : X ≠ []) (h1 : u.start = a) (h2 : u.start ≤ u.stop)
    (h3 : PreChainAux u.stop X L) : PreChainAux a (u :: X) L := by
  cases X with
  | nil => exact absurd rfl hne
  | cons w ws => exact ⟨h1, h2, h3⟩

theorem PreChainAux_close (d : List Char) :
    ∀ (units : List Unit) (a L L' : Nat), PreChainAux a units L → L ≤ L' →
      PreChainAux a
        (modifyLast (fun u => { u with stop := L' }) units ++ [⟨d, L', 0⟩]) L' := by
  intro units
  induction units with
  | nil =>
    intro a L L' h hle
    exact h.elim
  | cons u tail ih =>
    intro a L L' h hle
    cases tail with
    | nil =>
      obtain ⟨h1, h2⟩ := h
      simp only [modifyLast, List.cons_append, List.nil_append]
      exact ⟨h1, by simp; omega, rfl, le_refl _⟩
    | cons v rest =>
      obtain ⟨h1, h2, h3⟩ := h
      simp only [modifyLast, List.cons_append]
      refine PreChainAux_cons_intro (by simp) h1 h2 ?_
      exact ih u.stop L L' h3 hle

theorem PreChainAux_finalize :
    ∀ (units : List Unit) (a L L' : Nat), PreChainAux a units L → L ≤ L' →
      UChain a (modifyLast (fun u => { u with stop := L' }) units) L' := by
  intro units
  induction units with
  | nil =>
    intro a L L' h hle
    exact h.elim
  | cons u tail ih =>
    intro a L L' h hle
    cases tail with
    | nil =>
      obtain ⟨h1, h2⟩ := h
      exact ⟨h1, by simp; omega, rfl⟩
    | cons v rest =>
      obtain ⟨h1, h2, h3⟩ := h
      exact ⟨h1, h2, ih u.stop L L' h3 hle⟩

theorem processLine_PreChain {pp : Bool} {st st' : PState} {line : List Char}
    (h : processLine pp st line = Except.ok st')
    (hP : PreChain st.units st.tokens.length) :
    PreChain st'.units st'.tokens.length := by
  unfold processLine at h
  refine foldlM_except_inv (processChar pp) (fun s => PreChain s.units s.tokens.length)
    (fun s a s' hPs hok => ?_) _ _ _ ?_ h
  · obtain ⟨hu, hl⟩ := processChar_units hok
    rw [hu]
    rcases hPs with hnil | hPre
    · exact Or.inl hnil
    · exact Or.inr (PreChainAux_mono _ _ _ _ hPre hl)
  · dsimp only
    split
    · rename_i hsemi
      have hpl := push_token_length st.tokens st.next
      rcases hP with hnil | hPre
      · rw [hnil]
        simp only [List.isEmpty_nil, true_and]
        by_cases htoks : (push_token st.tokens st.next).isEmpty
        · rw [if_neg (by simp [htoks])]
          have h0 : push_token st.tokens st.next = [] := List.isEmpty_iff.mp htoks
          simp only [modifyLast, List.nil_append]
          refine Or.inr ⟨?_, le_refl _⟩
          rw [h0]
          rfl
        · rw [if_pos (by simpa using htoks)]
          simp only [List.nil_append, modifyLast, List.cons_append, List.nil_append]
          exact Or.inr ⟨rfl, Nat.zero_le _, rfl, le_refl _⟩
      · have hne : ¬ st.units.isEmpty := by
          cases hu : st.units with
          | nil => rw [hu] at hPre; exact hPre.elim
          | cons x xs => simp [hu]
        rw [if_neg (by simp [hne] :
          ¬ (st.units.isEmpty ∧ ¬ (push_token st.tokens st.next).isEmpty))]
        exact Or.inr (PreChainAux_close _ st.units 0 st.tokens.length _ hPre hpl)
    · exact hP

theorem parse_UChain {lines : List (List Char)} {pp : Bool} {prog : Program}
    (h : parse lines pp = Except.ok prog) :
    UChain 0 prog.units prog.tokens.length := by
  obtain ⟨st, hfold, hstk, htoks, hunits⟩ := parse_ok_exists h
  have hPre : PreChain st.units st.tokens.length :=
    foldlM_except_inv (processLine pp) (fun s => PreChain s.units s.tokens.length)
      (fun s a s' hP hok => processLine_PreChain hok hP) lines _ st (Or.inl rfl) hfold
  have hlen : st.tokens.length ≤ prog.tokens.length := by
    rw [htoks]
    cases hn : st.next <;> simp
  rw [hunits]
  by_cases hempty : st.units.isEmpty
  · rw [if_pos hempty]
    simp only [modifyLast]
    exact ⟨rfl, by simp, rfl⟩
  · rw [if_neg hempty]
    rcases hPre with hnil | hPre
    · rw [hnil] at hempty
      simp at hempty
    · exact PreChainAux_finalize st.units 0 st.tokens.length _ hPre hlen

theorem parse_units_default {lines : List (List Char)} {pp : Bool} {prog : Program}
    (h : parse lines pp = Except.ok prog)
    (hnu : ∀ l ∈ lines, (trimChars l).head? ≠ some ';') :
    prog.units = [⟨noUnitInfo, 0, prog.tokens.length⟩] := by
  obtain ⟨st, hfold, hstk, htoks, hunits⟩ := parse_ok_exists h
  have hU : st.units = [] := by
    refine foldlM_except_inv_mem (processLine pp) (fun s => s.units = [])
      lines (fun s l s' hl hP hok => ?_) _ _ rfl hfold
    unfold processLine at hok
    dsimp only at hok
    rw [if_neg (hnu l hl)] at hok
    refine foldlM_except_inv (processChar pp) (fun s => s.units = [])
      (fun s2 a s2' hP2 hok2 => ?_) _ _ _ hP hok
    show s2'.units = []
    rw [(processChar_units hok2).1]
    exact hP2
  rw [hunits, if_pos (by simp [hU])]
  simp [modifyLast]

/-- On a well-formed, partitioned program with in-range pc and unit index,
the resynchronisation loop always terminates: `step` cannot hang. -/
theorem step_no_hang {s : EngineState}
    (hu : UChain 0 s.program.units s.program.tokens.length)
    (hg : GoodProg s.program) (_hpc : s.pc < s.program.tokens.length)
    (hcu : s.current_unit < s.program.units.length) :
    step s ≠ StepOut.hang := by
  intro h
  obtain ⟨tok, s', hget, hexec, hfin⟩ := step_hang h
  obtain ⟨hprog, hcuEq, -⟩ := execToken_cont_frame hexec
  have hpcS : s'.pc + 1 < s.program.tokens.length := execToken_cont_pcSucc hg hget hexec
  have hres : (resync s'.program.units (s'.pc + 1) s'.current_unit).isSome := by
    rw [hprog, hcuEq]
    exact resync_complete hu hpcS hcu
  exact finish_ne_hang hres hfin

/-- Along any chain of `step` calls the program is unchanged and the pc stays
inside the stream, provided it started that way on a well-formed program. -/
theorem reaches_inv {init s : EngineState} (hg : GoodProg init.program)
    (hpc : init.pc < init.program.tokens.length) (h : Reaches init s) :
    s.program = init.program ∧ s.pc < s.program.tokens.length := by
  induction h with
  | refl => exact ⟨rfl, hpc⟩
  | ok m hreach hstep ih =>
    obtain ⟨hprog, hpc'⟩ := ih
    have hgb : GoodProg _ := hprog ▸ hg
    obtain ⟨h1, h2⟩ := (step_preserves hgb hpc').1 m hstep
    exact ⟨h1.trans hprog, h2⟩
  | err e hreach hstep ih =>
    obtain ⟨hprog, hpc'⟩ := ih
    have hgb : GoodProg _ := hprog ▸ hg
    obtain ⟨h1, h2⟩ := (step_preserves hgb hpc').2 e hstep
    refine ⟨h1.trans hprog, ?_⟩
    rw [h1, h2]
    exact hpc'

/-- An empty source compiles to the one-token stream `[Eof]`. -/
theorem parse_empty_tokens {pp : Bool} {prog : Program}
    (h : parse [] pp = Except.ok prog) : prog.tokens = [Token.eof] := by
  obtain ⟨st, hfold, -, htoks, -⟩ := parse_ok_exists h
  have hst : st = ⟨[], none, [], []⟩ := by
    simp only [List.foldlM] at hfold
    cases hfold
    rfl
  subst hst
  simpa using htoks

/-! ## Claim theorems -/

/-- C1: For every program successfully returned by `Program::parse`, every
`JumpZero` and `JumpNotZero` target is a valid index into the token stream,
and the brackets are round-trip paired: each `JumpZero` at position `p` has
its target `t` equal to the position immediately after its matching
`JumpNotZero` (which sits at `t - 1`), and that `JumpNotZero`'s target equals
`p + 1`; conversely each `JumpNotZero` at `q` targets one past a `JumpZero`
whose target is `q + 1` — for arbitrarily nested brackets. -/
theorem c1_bracket_round_trip {lines : List (List Char)} {pp : Bool} {prog : Program}
    (h : parse lines pp = Except.ok prog) :
    (∀ (p t : Nat), prog.tokens[p]? = some (Token.jumpZero t) →
       t < prog.tokens.length ∧ 1 ≤ t ∧ p + 2 ≤ t ∧
         prog.tokens[t - 1]? = some (Token.jumpNotZero (p + 1))) ∧
    (∀ (q r : Nat), prog.tokens[q]? = some (Token.jumpNotZero r) →
       r < prog.tokens.length ∧ 1 ≤ r ∧ r ≤ q ∧
         prog.tokens[r - 1]? = some (Token.jumpZero (q + 1))) := by
  obtain ⟨hz, hnz⟩ := parse_pairing h
  constructor
  · intro p t hp
    obtain ⟨h1, h2, h3, h4⟩ := hz p t hp
    exact ⟨h2, h1, h3, h4⟩
  · intro q r hq
    obtain ⟨h1, h2, h3, h4⟩ := hnz q r hq
    exact ⟨h2, h1, h3, h4⟩

/-- Witness for C1 at the source `"[]"`. -/
theorem c1_bracket_round_trip_witness :
    (2 : Nat) < 3 ∧ (1 : Nat) ≤ 2 ∧ (0 : Nat) + 2 ≤ 2 ∧
      ([Token.jumpZero 2, Token.jumpNotZero 1, Token.eof] : List Token)[2 - 1]? =
        some (Token.jumpNotZero (0 + 1)) := by
  have hp : parse [['[', ']']] false =
      Except.ok ⟨[⟨noUnitInfo, 0, 3⟩],
        [Token.jumpZero 2, Token.jumpNotZero 1, Token.eof]⟩ := rfl
  exact (c1_bracket_round_trip hp).1 0 2 rfl

/-- C2 (code bug): a unit-marker line is also scanned for instruction
characters.  Rust shadows `line` inside the `if let` that strips the `;`,
so the character loop runs over the whole trimmed line; a label containing
`+` therefore emits an `Increment`, and the stream differs from the one
produced with the marker line removed (empty source gives just `Eof`). -/
theorem c2_unit_label_scanned :
    parse [[';', ' ', '+']] false =
      Except.ok ⟨[⟨['+'], 0, 2⟩], [Token.increment 1, Token.eof]⟩ ∧
    parse [] false = Except.ok ⟨[⟨noUnitInfo, 0, 1⟩], [Token.eof]⟩ ∧
    ([Token.increment 1, Token.eof] : List Token) ≠ [Token.eof] :=
  ⟨rfl, rfl, by decide⟩

/-- C3: executing `step` on a `Move(d)` instruction fails with `TapeOverrun`
iff the pointer plus `d`, computed with wraparound arithmetic over the full
unsigned address space, is at least the tape length; the error carries the
engine state entirely unchanged (same record `s`); otherwise no error is
possible and, whenever the call returns, the pointer became the wrapped sum
(the `hang` disjunct covers engine states whose ill-formed unit table makes
the subsequent resynchronisation loop diverge — impossible for compiled
programs). -/
theorem c3_move_semantics (s : EngineState) (d : Int)
    (htok : s.program.tokens[s.pc]? = some (Token.move d)) :
    (s.tape.length ≤ usizeWrapAdd s.ptr d ↔
      step s = StepOut.err InterpreterError.tapeOverrun s) ∧
    (∀ e s1, step s = StepOut.err e s1 →
      e = InterpreterError.tapeOverrun ∧ s1 = s) ∧
    (usizeWrapAdd s.ptr d < s.tape.length →
      step s = StepOut.hang ∨
      ∃ s1, step s = StepOut.ok true s1 ∧ s1.ptr = usizeWrapAdd s.ptr d ∧
        s1.tape = s.tape ∧ s1.pc = s.pc + 1 ∧ s1.program = s.program) := by
  have hstep : step s =
      (if s.tape.length ≤ usizeWrapAdd s.ptr d then
        StepOut.err InterpreterError.tapeOverrun s
      else finish { s with ptr := usizeWrapAdd s.ptr d }) := by
    rw [step_eq]
    simp only [htok, execToken]
    by_cases hc : s.tape.length ≤ usizeWrapAdd s.ptr d
    · rw [if_pos hc, if_pos hc]
    · rw [if_neg hc, if_neg hc]
  by_cases hcand : s.tape.length ≤ usizeWrapAdd s.ptr d
  · rw [if_pos hcand] at hstep
    refine ⟨⟨fun _ => hstep, fun _ => hcand⟩, ?_, ?_⟩
    · intro e s1 hs
      rw [hstep] at hs
      injection hs with h1 h2
      exact ⟨h1.symm, h2.symm⟩
    · intro hlt
      omega
  · rw [if_neg hcand] at hstep
    refine ⟨⟨fun hge => absurd hge hcand, fun hs => ?_⟩, ?_, ?_⟩
    · rw [hstep] at hs
      exact absurd hs finish_not_err
    · intro e s1 hs
      rw [hstep] at hs
      exact absurd hs finish_not_err
    · intro hlt
      rw [hstep]
      cases hfin : finish { s with ptr := usizeWrapAdd s.ptr d } with
      | hang => exact Or.inl rfl
      | ok b s1 =>
        obtain ⟨hb, hs1, -⟩ := finish_ok hfin
        subst hb
        refine Or.inr ⟨s1, rfl, ?_, ?_, ?_, ?_⟩ <;> rw [hs1]
      | err e s1 => exact absurd hfin finish_not_err
      | panic => exact absurd hfin finish_not_panic

/-- Witness for C3: a one-cell tape and `Move(1)` overruns, leaving the
state untouched. -/
theorem c3_move_semantics_witness :
    step ⟨[0], ⟨[⟨[], 0, 2⟩], [Token.move 1, Token.eof]⟩, 0, 0, [],
        EofBehaviour.dontSet, 0, [], []⟩ =
      StepOut.err InterpreterError.tapeOverrun
        ⟨[0], ⟨[⟨[], 0, 2⟩], [Token.move 1, Token.eof]⟩, 0, 0, [],
          EofBehaviour.dontSet, 0, [], []⟩ :=
  ((c3_move_semantics ⟨[0], ⟨[⟨[], 0, 2⟩], [Token.move 1, Token.eof]⟩, 0, 0, [],
      EofBehaviour.dontSet, 0, [], []⟩ 1 rfl).1).mp (by decide)

/-- C4: after every `step` that returns `Ok(true)` the program counter lies
inside the range of the unit selected by the current-unit index; `step_unit`
returns `Ok(true)` only when the unit index actually changed from its value
at entry; a step whose new program counter stays inside the entry unit's
range never changes the unit index; and on a partitioned, well-formed
program with in-range pc and unit index, the resynchronising scan always
terminates (no `hang`). -/
theorem c4_unit_tracking :
    ∀ (s s1 s2 : EngineState) (f : Nat),
      (step s = StepOut.ok true s1 →
        ∃ u, s1.program.units[s1.current_unit]? = some u ∧
          u.start ≤ s1.pc ∧ s1.pc < u.stop) ∧
      (step_unit f s = StepOut.ok true s2 → s2.current_unit ≠ s.current_unit) ∧
      (step s = StepOut.ok true s1 →
        (∃ u, s.program.units[s.current_unit]? = some u ∧
          u.start ≤ s1.pc ∧ s1.pc < u.stop) →
        s1.current_unit = s.current_unit) ∧
      (UChain 0 s.program.units s.program.tokens.length → GoodProg s.program →
        s.pc < s.program.tokens.length → s.current_unit < s.program.units.length →
        step s ≠ StepOut.hang) := by
  intro s s1 s2 f
  refine ⟨fun h => step_ok_true_contains h, fun h => ?_,
    fun h hc => step_ok_true_cu_stable h hc,
    fun h1 h2 h3 h4 => step_no_hang h1 h2 h3 h4⟩
  exact stepUnitAux_ok_true f s s2 h

/-- Witness for C4 on concrete two-unit and one-unit programs. -/
theorem c4_unit_tracking_witness :
    (∃ u, ([⟨[], 0, 2⟩] : List Unit)[0]? = some u ∧ u.start ≤ 1 ∧ 1 < u.stop) ∧
    (1 : Nat) ≠ 0 ∧
    (0 : Nat) = 0 ∧
    step ⟨[0], ⟨[⟨[], 0, 2⟩], [Token.increment 1, Token.eof]⟩, 0, 0, [],
        EofBehaviour.dontSet, 0, [], []⟩ ≠ StepOut.hang := by
  refine ⟨?_, ?_, ?_, ?_⟩
  · exact (c4_unit_tracking
      ⟨[0], ⟨[⟨[], 0, 2⟩], [Token.increment 1, Token.eof]⟩, 0, 0, [],
        EofBehaviour.dontSet, 0, [], []⟩
      ⟨[1], ⟨[⟨[], 0, 2⟩], [Token.increment 1, Token.eof]⟩, 1, 0, [],
        EofBehaviour.dontSet, 0, [], []⟩
      ⟨[1], ⟨[⟨[], 0, 2⟩], [Token.increment 1, Token.eof]⟩, 1, 0, [],
        EofBehaviour.dontSet, 0, [], []⟩ 1).1 rfl
  · exact (c4_unit_tracking
      ⟨[0], ⟨[⟨[], 0, 1⟩, ⟨[], 1, 2⟩], [Token.increment 1, Token.eof]⟩, 0, 0, [],
        EofBehaviour.dontSet, 0, [], []⟩
      ⟨[1], ⟨[⟨[], 0, 1⟩, ⟨[], 1, 2⟩], [Token.increment 1, Token.eof]⟩, 1, 0, [],
        EofBehaviour.dontSet, 1, [], []⟩
      ⟨[1], ⟨[⟨[], 0, 1⟩, ⟨[], 1, 2⟩], [Token.increment 1, Token.eof]⟩, 1, 0, [],
        EofBehaviour.dontSet, 1, [], []⟩ 1).2.1 rfl
  · exact (c4_unit_tracking
      ⟨[0], ⟨[⟨[], 0, 2⟩], [Token.increment 1, Token.eof]⟩, 0, 0, [],
        EofBehaviour.dontSet, 0, [], []⟩
      ⟨[1], ⟨[⟨[], 0, 2⟩], [Token.increment 1, Token.eof]⟩, 1, 0, [],
        EofBehaviour.dontSet, 0, [], []⟩
      ⟨[1], ⟨[⟨[], 0, 2⟩], [Token.increment 1, Token.eof]⟩, 1, 0, [],
        EofBehaviour.dontSet, 0, [], []⟩ 1).2.2.1 rfl
      ⟨⟨[], 0, 2⟩, rfl, by decide, by decide⟩
  · have hgp : GoodProg ⟨[⟨[], 0, 2⟩], [Token.increment 1, Token.eof]⟩ := by
      refine ⟨by decide, rfl, ?_, ?_⟩
      · intro p t hp
        rcases p with _ | _ | p <;> simp at hp
      · intro q t hq
        rcases q with _ | _ | q <;> simp at hq
    exact (c4_unit_tracking
      ⟨[0], ⟨[⟨[], 0, 2⟩], [Token.increment 1, Token.eof]⟩, 0, 0, [],
        EofBehaviour.dontSet, 0, [], []⟩
      ⟨[1], ⟨[⟨[], 0, 2⟩], [Token.increment 1, Token.eof]⟩, 1, 0, [],
        EofBehaviour.dontSet, 0, [], []⟩
      ⟨[1], ⟨[⟨[], 0, 2⟩], [Token.increment 1, Token.eof]⟩, 1, 0, [],
        EofBehaviour.dontSet, 0, [], []⟩ 1).2.2.2
      ⟨rfl, by decide, rfl⟩ hgp (by decide) (by decide)

/-- C5: for every successfully parsed program the ordered unit table exactly
partitions `[0, token stream length)` — first unit starts at 0, each unit
starts where its predecessor stops with non-reversed ranges, and the last
unit stops at the stream length; if no (trimmed) source line starts with the
`;` marker there is exactly one synthetic unit spanning the whole stream,
and the empty source compiles to the single-token stream `[Eof]`. -/
theorem c5_units_partition {lines : List (List Char)} {pp : Bool} {prog : Program}
    (h : parse lines pp = Except.ok prog) :
    UChain 0 prog.units prog.tokens.length ∧
    ((∀ l ∈ lines, (trimChars l).head? ≠ some ';') →
      prog.units = [⟨noUnitInfo, 0, prog.tokens.length⟩]) ∧
    (lines = [] → prog.tokens = [Token.eof]) :=
  ⟨parse_UChain h, parse_units_default h, fun hl => parse_empty_tokens (hl ▸ h)⟩

/-- Witness for C5 at the empty source. -/
theorem c5_units_partition_witness :
    UChain 0 [⟨noUnitInfo, 0, 1⟩] 1 ∧
    ([⟨noUnitInfo, 0, 1⟩] : List Unit) = [⟨noUnitInfo, 0, 1⟩] ∧
    ([Token.eof] : List Token) = [Token.eof] := by
  have h := c5_units_partition
    (show parse [] false = Except.ok ⟨[⟨noUnitInfo, 0, 1⟩], [Token.eof]⟩ from rfl)
  refine ⟨h.1, ?_, ?_⟩
  · exact h.2.1 (fun l hl => absurd hl (List.not_mem_nil l))
  · exact h.2.2 rfl

/-- C6 (code bug): a maximal run of `+`/`-` with net count ≡ 0 (mod 256) is
supposed to emit nothing, and `push_token` indeed drops `Increment(0)` /
`Move(0)` mid-stream (`"+-."` emits only `Output`), but the final flush at
end of source (src/parser.rs:170-172) pushes the pending token without that
filter: the source `"+-"` compiles to `[Increment 0, Eof]`. -/
theorem c6_trailing_zero_run :
    parse [['+', '-']] false =
      Except.ok ⟨[⟨noUnitInfo, 0, 2⟩], [Token.increment 0, Token.eof]⟩ ∧
    parse [['+', '-', '.']] false =
      Except.ok ⟨[⟨noUnitInfo, 0, 2⟩], [Token.output, Token.eof]⟩ ∧
    parse [['>', '<']] false =
      Except.ok ⟨[⟨noUnitInfo, 0, 2⟩], [Token.move 0, Token.eof]⟩ :=
  ⟨rfl, rfl, rfl⟩

/-- C7 (code bug): `Output` is implemented as
`print!("{}", self.tape[self.ptr] as char)`, which writes the UTF-8 encoding
of the cell value as a code point: for the cell value 128 it writes the two
bytes `[194, 128]`, not the single byte `[128]` the claim requires. -/
theorem c7_output_utf8 :
    step ⟨[128], ⟨[⟨[], 0, 2⟩], [Token.output, Token.eof]⟩, 0, 0, [],
        EofBehaviour.dontSet, 0, [], []⟩ =
      StepOut.ok true ⟨[128], ⟨[⟨[], 0, 2⟩], [Token.output, Token.eof]⟩, 1, 0, [],
        EofBehaviour.dontSet, 0, [], [194, 128]⟩ ∧
    ([194, 128] : List Nat) ≠ [128] ∧
    charBytes 127 = [127] :=
  ⟨rfl, by decide, rfl⟩

/-- C8 counterexample: for the source `"[]"` the `]` emits a `JumpNotZero`
whose target is 1 — one *past* the matched `JumpZero`'s own position 0 — so
the claim "target equal to the matched JumpZero's own position" fails. -/
theorem c8_counterexample :
    parse [['[', ']']] false =
      Except.ok ⟨[⟨noUnitInfo, 0, 3⟩],
        [Token.jumpZero 2, Token.jumpNotZero 1, Token.eof]⟩ ∧
    ¬ ([Token.jumpZero 2, Token.jumpNotZero 1, Token.eof] :
        List Token)[1]? = some (Token.jumpNotZero 0) :=
  ⟨rfl, by decide⟩

/-- C8 (amended): when `Program::parse` processes a `]`, the `JumpNotZero`
token it emits (at position `q`, the token count after flushing the pending
token) has a target equal to **one past** the matched `JumpZero` token's
position `e - 1`, while the matched `JumpZero`'s target is back-patched to
`q + 1`, one past the new `JumpNotZero`. -/
theorem c8_close_bracket (pp : Bool) (st : PState) (e : Nat) (rest : List Nat)
    (hstack : st.stack = e :: rest) (he1 : 1 ≤ e)
    (he2 : e ≤ (push_token st.tokens st.next).length) :
    ∃ st', processChar pp st ']' = Except.ok st' ∧
      st'.tokens[(push_token st.tokens st.next).length]? =
        some (Token.jumpNotZero e) ∧
      st'.tokens[e - 1]? =
        some (Token.jumpZero ((push_token st.tokens st.next).length + 1)) ∧
      st'.tokens.length = (push_token st.tokens st.next).length + 1 ∧
      st'.stack = rest := by
  have hlen : ((push_token st.tokens st.next).set (e - 1)
      (Token.jumpZero ((push_token st.tokens st.next).length + 1))).length =
      (push_token st.tokens st.next).length := by simp
  refine ⟨{ st with
      tokens := (push_token st.tokens st.next).set (e - 1)
          (Token.jumpZero ((push_token st.tokens st.next).length + 1)) ++
        [Token.jumpNotZero e],
      next := none, stack := rest }, ?_, ?_, ?_, ?_, ?_⟩
  · show processChar pp st ']' = Except.ok { st with
      tokens := (push_token st.tokens st.next).set (e - 1)
          (Token.jumpZero ((push_token st.tokens st.next).length + 1)) ++
        [Token.jumpNotZero e],
      next := none, stack := rest }
    unfold processChar
    rw [if_neg (by decide), if_neg (by decide), if_neg (by decide),
      if_neg (by decide), if_neg (by decide), if_pos (by decide)]
    rw [hstack]
  · show ((push_token st.tokens st.next).set (e - 1)
        (Token.jumpZero ((push_token st.tokens st.next).length + 1)) ++
      [Token.jumpNotZero e])[(push_token st.tokens st.next).length]? =
      some (Token.jumpNotZero e)
    rw [← hlen]
    simp
  · show ((push_token st.tokens st.next).set (e - 1)
        (Token.jumpZero ((push_token st.tokens st.next).length + 1)) ++
      [Token.jumpNotZero e])[e - 1]? =
      some (Token.jumpZero ((push_token st.tokens st.next).length + 1))
    rw [List.getElem?_append_left (by rw [hlen]; omega)]
    exact List.getElem?_set_eq_of_lt _ (by omega)
  · show ((push_token st.tokens st.next).set (e - 1)
        (Token.jumpZero ((push_token st.tokens st.next).length + 1)) ++
      [Token.jumpNotZero e]).length = (push_token st.tokens st.next).length + 1
    simp
  · rfl

/-- Witness for C8's amended statement, at the parse state reached right
after reading `"["`. -/
theorem c8_close_bracket_witness :
    ∃ st', processChar false ⟨[Token.jumpZero 0], none, [1], []⟩ ']' =
        Except.ok st' ∧
      st'.tokens[1]? = some (Token.jumpNotZero 1) ∧
      st'.tokens[0]? = some (Token.jumpZero 2) ∧
      st'.tokens.length = 2 ∧ st'.stack = [] :=
  c8_close_bracket false ⟨[Token.jumpZero 0], none, [1], []⟩ 1 [] rfl
    (by decide) (by decide)

/-- C9: starting from a freshly constructed engine on any program produced
by `Program::parse`, no chain of `step` calls (threading the engine state
through successes and errors alike) ever reaches a state where `step`
returns `InvalidProgram`: the program counter always stays a valid index
into the token stream. -/
theorem c9_no_invalid_program {lines : List (List Char)} {pp : Bool}
    {prog : Program} {ts : Nat} {eb : EofBehaviour} {inp : List InEvent}
    {s : EngineState} (h : parse lines pp = Except.ok prog)
    (hr : Reaches (Interpreter.new prog ts eb inp) s) :
    s.pc < s.program.tokens.length ∧
      ∀ s1, step s ≠ StepOut.err InterpreterError.invalidProgram s1 := by
  have hg : GoodProg prog := parse_good h
  have hpc0 : (Interpreter.new prog ts eb inp).pc <
      (Interpreter.new prog ts eb inp).program.tokens.length := hg.nonempty
  obtain ⟨hprog, hpc⟩ := reaches_inv hg hpc0 hr
  exact ⟨hpc, fun s1 => step_not_invalid hpc⟩

/-- Witness for C9: the empty program, freshly constructed engine. -/
theorem c9_no_invalid_program_witness :
    (Interpreter.new ⟨[⟨noUnitInfo, 0, 1⟩], [Token.eof]⟩ 1
        EofBehaviour.dontSet []).pc <
      (Interpreter.new ⟨[⟨noUnitInfo, 0, 1⟩], [Token.eof]⟩ 1
        EofBehaviour.dontSet []).program.tokens.length ∧
    ∀ s1, step (Interpreter.new ⟨[⟨noUnitInfo, 0, 1⟩], [Token.eof]⟩ 1
        EofBehaviour.dontSet []) ≠
      StepOut.err InterpreterError.invalidProgram s1 :=
  @c9_no_invalid_program [] false ⟨[⟨noUnitInfo, 0, 1⟩], [Token.eof]⟩ 1
    EofBehaviour.dontSet []
    (Interpreter.new ⟨[⟨noUnitInfo, 0, 1⟩], [Token.eof]⟩ 1 EofBehaviour.dontSet [])
    rfl (Reaches.refl _)

/-- C10: an engine constructed with `tape_size ≥ 1` starts with its pointer
inside the tape, and every `step` keeps it there: a `Move` either fails with
the pointer unchanged or installs an in-bounds pointer, no other instruction
moves the pointer, the tape length never changes, and `step` never performs
an out-of-bounds tape access (`panic`). -/
theorem c10_pointer_bounds :
    (∀ (prog : Program) (ts : Nat) (eb : EofBehaviour) (inp : List InEvent),
      1 ≤ ts →
      (Interpreter.new prog ts eb inp).ptr <
        (Interpreter.new prog ts eb inp).tape.length) ∧
    (∀ s : EngineState, s.ptr < s.tape.length →
      step s ≠ StepOut.panic ∧
      (∀ b s1, step s = StepOut.ok b s1 →
        s1.ptr < s1.tape.length ∧ s1.tape.length = s.tape.length ∧
        ((∀ d, s.program.tokens[s.pc]? ≠ some (Token.move d)) → s1.ptr = s.ptr)) ∧
      (∀ e s1, step s = StepOut.err e s1 →
        s1.ptr = s.ptr ∧ s1.tape.length = s.tape.length)) := by
  constructor
  · intro prog ts eb inp hts
    show 0 < (List.replicate ts (0 : Nat)).length
    simp
    omega
  · intro s hptr
    refine ⟨?_, ?_, ?_⟩
    · intro hpan
      obtain ⟨tok, hget, hexec⟩ := step_panic hpan
      exact execToken_no_panic hptr hexec
    · intro b s1 hstep
      cases b with
      | true =>
        obtain ⟨tok, s', hget, hexec, hfin⟩ := step_ok_true hstep
        obtain ⟨-, hs1, -⟩ := finish_ok hfin
        obtain ⟨-, -, htlen⟩ := execToken_cont_frame hexec
        have hptr1 : s1.ptr = s'.ptr := by rw [hs1]
        have htape1 : s1.tape.length = s'.tape.length := by rw [hs1]
        refine ⟨?_, by rw [htape1, htlen], ?_⟩
        · rw [hptr1, htape1]
          exact execToken_cont_ptr_lt hptr hexec
        · intro hmv
          rw [hptr1]
          refine execToken_cont_ptr_eq hexec ?_
          intro d hc
          exact hmv d (hc ▸ hget)
      | false =>
        obtain ⟨hs1, -⟩ := step_ok_false hstep
        subst hs1
        exact ⟨hptr, rfl, fun _ => rfl⟩
    · intro e s1 hstep
      rcases step_err hstep with ⟨-, -, hs1⟩ | ⟨tok, hget, hfail⟩
      · subst hs1
        exact ⟨rfl, rfl⟩
      · obtain ⟨-, hptrEq, htapeEq, -, -⟩ := execToken_fail hfail
        rw [hptrEq, htapeEq]
        exact ⟨rfl, rfl⟩

/-- Witness for C10: fresh engine with tape size 1, and a concrete in-bounds
state on which `step` cannot panic. -/
theorem c10_pointer_bounds_witness :
    (Interpreter.new ⟨[⟨noUnitInfo, 0, 1⟩], [Token.eof]⟩ 1
        EofBehaviour.dontSet []).ptr <
      (Interpreter.new ⟨[⟨noUnitInfo, 0, 1⟩], [Token.eof]⟩ 1
        EofBehaviour.dontSet []).tape.length ∧
    step ⟨[0], ⟨[⟨[], 0, 2⟩], [Token.increment 1, Token.eof]⟩, 0, 0, [],
        EofBehaviour.dontSet, 0, [], []⟩ ≠ StepOut.panic :=
  ⟨c10_pointer_bounds.1 ⟨[⟨noUnitInfo, 0, 1⟩], [Token.eof]⟩ 1
      EofBehaviour.dontSet [] (by decide),
    (c10_pointer_bounds.2 ⟨[0], ⟨[⟨[], 0, 2⟩], [Token.increment 1, Token.eof]⟩,
      0, 0, [], EofBehaviour.dontSet, 0, [], []⟩ (by decide)).1⟩

end Brainstorm
